import Mathlib

/-!
Verification development for the structural-landscape analysis pipeline
(`Structural_Landscape_Analysis_MDS.py`): metric multidimensional scaling
on a pairwise dissimilarity matrix followed by a per-category dispersion
statistic.  The dispersion computation, the metadata merge and the
file-handling skeleton are embedded directly from the script; the matrix
validator and the iterative SMACOF embedder, which the script delegates to
an external library, are modelled from the specification document.
Coordinates and dissimilarities are modelled as real numbers (the script's
floating-point values in exact arithmetic).
-/

open Finset

/-- Row of the merged coordinate table `coords_df`: an entity identifier,
its two embedding coordinates `Dim1`/`Dim2`, and its `Lineage` label. -/
structure Row where
  seqId : String
  dim1 : ℝ
  dim2 : ℝ
  lineage : String

/-- Mean of a list of reals, as pandas `Series.mean()`: the sum divided by
the length (for the empty list this is `0 / 0 = 0` in Lean's convention;
the script never takes the mean of an empty series). -/
noncomputable def listMean (l : List ℝ) : ℝ := l.sum / l.length

/-- Subset of the table whose `Lineage` column equals the given name:
`coords_df[coords_df['Lineage'] == lineage_name]`. -/
def subsetOf (coords_df : List Row) (lineage_name : String) : List Row :=
  coords_df.filter (fun r => r.lineage == lineage_name)

/-- Embedding of `calculate_dispersion` from
`Structural_Landscape_Analysis_MDS.py` (lines 25-32): filter the table to
the rows of the given lineage; if the subset is empty return `0.0`;
otherwise take the columnwise mean of `Dim1`/`Dim2` as the centroid and
return the mean of the rowwise Euclidean distances
`sqrt((Dim1 - c1)^2 + (Dim2 - c2)^2)` to it. -/
noncomputable def calculate_dispersion (coords_df : List Row) (lineage_name : String) : ℝ :=
  if (subsetOf coords_df lineage_name).isEmpty then 0.0
  else
    listMean ((subsetOf coords_df lineage_name).map (fun r =>
      Real.sqrt ((r.dim1 - listMean ((subsetOf coords_df lineage_name).map Row.dim1)) ^ 2
        + (r.dim2 - listMean ((subsetOf coords_df lineage_name).map Row.dim2)) ^ 2)))

/-- Point of the plane associated to a row of the coordinate table. -/
noncomputable def toPoint (r : Row) : EuclideanSpace ℝ (Fin 2) :=
  ![r.dim1, r.dim2]

/-- Centroid of a list of rows: the arithmetic mean of the member
coordinates, componentwise. -/
noncomputable def centroidOf (l : List Row) : EuclideanSpace ℝ (Fin 2) :=
  ![listMean (l.map Row.dim1), listMean (l.map Row.dim2)]

theorem dist_toPoint_centroid (r : Row) (l : List Row) :
    dist (toPoint r) (centroidOf l)
      = Real.sqrt ((r.dim1 - listMean (l.map Row.dim1)) ^ 2
          + (r.dim2 - listMean (l.map Row.dim2)) ^ 2) := by
  simp [toPoint, centroidOf, EuclideanSpace.dist_eq, Fin.sum_univ_two, Real.dist_eq, sq_abs]

/-- C1: for every category label and every coordinate table, when the
category has members, the dispersion value is the arithmetic mean of the
Euclidean distances from each member point to the category centroid, the
centroid being the arithmetic mean of the member coordinates. -/
theorem calculate_dispersion_eq_mean_dist_to_centroid
    (coords_df : List Row) (lineage_name : String)
    (h : subsetOf coords_df lineage_name ≠ []) :
    calculate_dispersion coords_df lineage_name
      = listMean ((subsetOf coords_df lineage_name).map
          (fun r => dist (toPoint r) (centroidOf (subsetOf coords_df lineage_name)))) := by
  rw [calculate_dispersion, if_neg (by simpa [List.isEmpty_iff] using h)]
  congr 1
  exact List.map_congr_left (fun r _ => (dist_toPoint_centroid r _).symm)

/-- Witness for C1 on a concrete two-row table. -/
theorem calculate_dispersion_eq_mean_dist_to_centroid_witness :
    subsetOf [⟨"A", 1, 2, "Compact-loop"⟩, ⟨"B", 3, 4, "Compact-loop"⟩] "Compact-loop" ≠ [] ∧
    calculate_dispersion [⟨"A", 1, 2, "Compact-loop"⟩, ⟨"B", 3, 4, "Compact-loop"⟩] "Compact-loop"
      = listMean ((subsetOf [⟨"A", 1, 2, "Compact-loop"⟩, ⟨"B", 3, 4, "Compact-loop"⟩]
            "Compact-loop").map
          (fun r => dist (toPoint r)
            (centroidOf (subsetOf [⟨"A", 1, 2, "Compact-loop"⟩, ⟨"B", 3, 4, "Compact-loop"⟩]
              "Compact-loop")))) :=
  ⟨by simp [subsetOf],
   calculate_dispersion_eq_mean_dist_to_centroid _ _ (by simp [subsetOf])⟩

/-- C2: a category with zero members or exactly one member has dispersion
exactly `0`: the empty case takes the explicit `return 0.0` branch and the
singleton case has its centroid at the unique member, giving mean
distance `sqrt 0 / 1 = 0`.  No error and no undefined value arises. -/
theorem calculate_dispersion_degenerate
    (coords_df : List Row) (lineage_name : String)
    (h : (subsetOf coords_df lineage_name).length ≤ 1) :
    calculate_dispersion coords_df lineage_name = 0 := by
  match hs : subsetOf coords_df lineage_name with
  | [] =>
    rw [calculate_dispersion, hs]
    norm_num
  | [r] =>
    rw [calculate_dispersion, hs]
    simp [listMean]
  | r₁ :: r₂ :: t =>
    rw [hs] at h
    simp at h

/-- Witness for C2: a table whose only `Compact-loop` row is a singleton
category, and an empty category. -/
theorem calculate_dispersion_degenerate_witness :
    ((subsetOf [⟨"A", 5, 7, "Compact-loop"⟩] "Compact-loop").length ≤ 1 ∧
      calculate_dispersion [⟨"A", 5, 7, "Compact-loop"⟩] "Compact-loop" = 0) ∧
    ((subsetOf [⟨"A", 5, 7, "Compact-loop"⟩] "Extended-loop").length ≤ 1 ∧
      calculate_dispersion [⟨"A", 5, 7, "Compact-loop"⟩] "Extended-loop" = 0) :=
  ⟨⟨by simp [subsetOf], calculate_dispersion_degenerate _ _ (by simp [subsetOf])⟩,
   ⟨by simp [subsetOf], calculate_dispersion_degenerate _ _ (by simp [subsetOf])⟩⟩

section Smacof

variable {n : ℕ} {E : Type*} [NormedAddCommGroup E] [InnerProductSpace ℝ E]

/-- Modelled from the spec (§4.2 step 2): the per-pair weight of the
Guttman transform, the ratio of the target dissimilarity to the current
distance of a candidate configuration, with the numerical guard for
coincident points (ratio `0` when the current distance is zero).  The
solver itself is delegated by the script to an external library and is
absent from the repository. -/
noncomputable def guttmanWeight (δ : Fin n → Fin n → ℝ) (Z : Fin n → E) (i j : Fin n) : ℝ :=
  if ‖Z i - Z j‖ = 0 then 0 else δ i j / ‖Z i - Z j‖

/-- Modelled from the spec (§4.2 step 2): one Guttman-transform update of
a candidate configuration — each point moves to the weighted average
position implied by pulling it toward every other point proportionally to
the target-to-current distance ratio. -/
noncomputable def guttman (δ : Fin n → Fin n → ℝ) (Z : Fin n → E) : Fin n → E :=
  fun i => (n : ℝ)⁻¹ • ∑ j, guttmanWeight δ Z i j • (Z i - Z j)

/-- Modelled from the spec (§4.2 step 2): the raw stress of a
configuration against the target dissimilarities, the sum over all pairs
of squared differences between current distances and targets (each
unordered pair is counted once, hence the division of the full double sum
by two). -/
noncomputable def stress (δ : Fin n → Fin n → ℝ) (X : Fin n → E) : ℝ :=
  (∑ i, ∑ j, (δ i j - ‖X i - X j‖) ^ 2) / 2

/-- Sum of squared target dissimilarities over all ordered pairs. -/
noncomputable def sqsum (δ : Fin n → Fin n → ℝ) : ℝ := ∑ i, ∑ j, (δ i j) ^ 2

/-- Sum of squared configuration distances over all ordered pairs. -/
noncomputable def eta (X : Fin n → E) : ℝ := ∑ i, ∑ j, ‖X i - X j‖ ^ 2

/-- Cross term of the stress: targets times current distances. -/
noncomputable def crossTerm (δ : Fin n → Fin n → ℝ) (X : Fin n → E) : ℝ :=
  ∑ i, ∑ j, δ i j * ‖X i - X j‖

/-- Linearized cross term used by the majorizing function of the stress. -/
noncomputable def rho (δ : Fin n → Fin n → ℝ) (Z X : Fin n → E) : ℝ :=
  ∑ i, ∑ j, guttmanWeight δ Z i j * (inner (X i - X j) (Z i - Z j) : ℝ)

/-- Majorizing function of the stress at anchor `Z` (times two). -/
noncomputable def tau (δ : Fin n → Fin n → ℝ) (Z X : Fin n → E) : ℝ :=
  sqsum δ + eta X - 2 * rho δ Z X

theorem two_mul_stress (δ : Fin n → Fin n → ℝ) (X : Fin n → E) :
    2 * stress δ X = sqsum δ + eta X - 2 * crossTerm δ X := by
  have h : (∑ i, ∑ j, (δ i j - ‖X i - X j‖) ^ 2)
      = ∑ i, ∑ j, ((δ i j) ^ 2 + ‖X i - X j‖ ^ 2 - 2 * (δ i j * ‖X i - X j‖)) :=
    Finset.sum_congr rfl (fun i _ => Finset.sum_congr rfl (fun j _ => by ring))
  rw [stress, h]
  simp only [Finset.sum_add_distrib, Finset.sum_sub_distrib, ← Finset.mul_sum]
  rw [sqsum, eta, crossTerm]
  ring

theorem rho_le_crossTerm (δ : Fin n → Fin n → ℝ) (Z X : Fin n → E)
    (hnn : ∀ i j, 0 ≤ δ i j) : rho δ Z X ≤ crossTerm δ X := by
  refine Finset.sum_le_sum (fun i _ => Finset.sum_le_sum (fun j _ => ?_))
  by_cases h : ‖Z i - Z j‖ = 0
  · rw [guttmanWeight, if_pos h, zero_mul]
    exact mul_nonneg (hnn i j) (norm_nonneg _)
  · have hpos : 0 < ‖Z i - Z j‖ := lt_of_le_of_ne (norm_nonneg _) (Ne.symm h)
    have hcs : (inner (X i - X j) (Z i - Z j) : ℝ) ≤ ‖X i - X j‖ * ‖Z i - Z j‖ :=
      real_inner_le_norm _ _
    have hwnn : 0 ≤ δ i j / ‖Z i - Z j‖ := div_nonneg (hnn i j) hpos.le
    calc guttmanWeight δ Z i j * (inner (X i - X j) (Z i - Z j) : ℝ)
        ≤ (δ i j / ‖Z i - Z j‖) * (‖X i - X j‖ * ‖Z i - Z j‖) := by
          rw [guttmanWeight, if_neg h]
          exact mul_le_mul_of_nonneg_left hcs hwnn
      _ = δ i j * ‖X i - X j‖ := by field_simp; ring

theorem rho_self_eq_crossTerm (δ : Fin n → Fin n → ℝ) (Z : Fin n → E) :
    rho δ Z Z = crossTerm δ Z := by
  refine Finset.sum_congr rfl (fun i _ => Finset.sum_congr rfl (fun j _ => ?_))
  by_cases h : ‖Z i - Z j‖ = 0
  · rw [guttmanWeight, if_pos h, zero_mul, h, mul_zero]
  · rw [guttmanWeight, if_neg h, real_inner_self_eq_norm_sq]
    field_simp
    ring

theorem guttmanWeight_symm (δ : Fin n → Fin n → ℝ) (Z : Fin n → E)
    (hsym : ∀ i j, δ i j = δ j i) (i j : Fin n) :
    guttmanWeight δ Z i j = guttmanWeight δ Z j i := by
  rw [guttmanWeight, guttmanWeight, norm_sub_rev (Z i) (Z j), hsym i j]

theorem sum_guttman_eq_zero (δ : Fin n → Fin n → ℝ) (Z : Fin n → E)
    (hsym : ∀ i j, δ i j = δ j i) :
    ∑ i, guttman δ Z i = (0 : E) := by
  have hT : (∑ i, ∑ j, guttmanWeight δ Z i j • (Z i - Z j))
      = -(∑ i, ∑ j, guttmanWeight δ Z i j • (Z i - Z j)) := by
    nth_rewrite 1 [Finset.sum_comm]
    rw [← Finset.sum_neg_distrib]
    refine Finset.sum_congr rfl (fun i _ => ?_)
    rw [← Finset.sum_neg_distrib]
    refine Finset.sum_congr rfl (fun j _ => ?_)
    rw [guttmanWeight_symm δ Z hsym j i]
    rw [show Z j - Z i = -(Z i - Z j) from by abel, smul_neg]
  have hT0 : (∑ i, ∑ j, guttmanWeight δ Z i j • (Z i - Z j)) = (0 : E) := by
    have h2 : (∑ i, ∑ j, guttmanWeight δ Z i j • (Z i - Z j))
        + (∑ i, ∑ j, guttmanWeight δ Z i j • (Z i - Z j)) = 0 := by
      nth_rewrite 2 [hT]
      exact add_neg_cancel _
    have h3 : (2 : ℝ) • (∑ i, ∑ j, guttmanWeight δ Z i j • (Z i - Z j)) = 0 := by
      rw [two_smul]
      exact h2
    rcases smul_eq_zero.mp h3 with h | h
    · exact absurd h two_ne_zero
    · exact h
  simp only [guttman]
  rw [← Finset.smul_sum, hT0, smul_zero]

theorem nsmul_guttman (δ : Fin n → Fin n → ℝ) (Z : Fin n → E) (i : Fin n) :
    (n : ℝ) • guttman δ Z i = ∑ j, guttmanWeight δ Z i j • (Z i - Z j) := by
  have hn : (n : ℝ) ≠ 0 := Nat.cast_ne_zero.mpr (Fin.pos i).ne'
  simp only [guttman]
  rw [smul_smul, mul_inv_cancel₀ hn, one_smul]

theorem sum_inner_diff_of_sum_zero (U A : Fin n → E) (hA : ∑ i, A i = (0 : E)) :
    ∑ i, ∑ j, (inner (U i - U j) (A i - A j) : ℝ)
      = 2 * ∑ i, (n : ℝ) * (inner (U i) (A i) : ℝ) := by
  have hexp : (∑ i, ∑ j, (inner (U i - U j) (A i - A j) : ℝ))
      = ∑ i, ∑ j, ((inner (U i) (A i) : ℝ) - (inner (U i) (A j) : ℝ)
          - (inner (U j) (A i) : ℝ) + (inner (U j) (A j) : ℝ)) := by
    refine Finset.sum_congr rfl (fun i _ => Finset.sum_congr rfl (fun j _ => ?_))
    rw [inner_sub_left, inner_sub_right, inner_sub_right]
    ring
  have h1 : (∑ i, ∑ j, (inner (U i) (A j) : ℝ)) = 0 := by
    have : ∀ i : Fin n, (∑ j, (inner (U i) (A j) : ℝ)) = 0 := by
      intro i
      rw [← inner_sum, hA, inner_zero_right]
    exact Finset.sum_eq_zero (fun i _ => this i)
  have h2 : (∑ i, ∑ j, (inner (U j) (A i) : ℝ)) = 0 := by
    rw [Finset.sum_comm]
    exact h1
  have h3 : (∑ i, ∑ _j : Fin n, (inner (U i) (A i) : ℝ))
      = ∑ i, (n : ℝ) * (inner (U i) (A i) : ℝ) := by
    refine Finset.sum_congr rfl (fun i _ => ?_)
    rw [Finset.sum_const, Finset.card_univ, Fintype.card_fin, nsmul_eq_mul]
  have h4 : (∑ i : Fin n, ∑ j, (inner (U j) (A j) : ℝ))
      = ∑ i, (n : ℝ) * (inner (U i) (A i) : ℝ) := by
    rw [Finset.sum_comm]
    exact h3
  rw [hexp]
  simp only [Finset.sum_add_distrib, Finset.sum_sub_distrib]
  rw [h1, h2, h3, h4]
  ring

theorem rho_eq_two_mul (δ : Fin n → Fin n → ℝ) (Z : Fin n → E)
    (hsym : ∀ i j, δ i j = δ j i) (U : Fin n → E) :
    rho δ Z U = 2 * ∑ i, ∑ j, guttmanWeight δ Z i j * (inner (U i) (Z i - Z j) : ℝ) := by
  have hS2 : (∑ i, ∑ j, guttmanWeight δ Z i j * (inner (U j) (Z i - Z j) : ℝ))
      = -(∑ i, ∑ j, guttmanWeight δ Z i j * (inner (U i) (Z i - Z j) : ℝ)) := by
    nth_rewrite 1 [Finset.sum_comm]
    rw [← Finset.sum_neg_distrib]
    refine Finset.sum_congr rfl (fun i _ => ?_)
    rw [← Finset.sum_neg_distrib]
    refine Finset.sum_congr rfl (fun j _ => ?_)
    rw [guttmanWeight_symm δ Z hsym j i,
        show Z j - Z i = -(Z i - Z j) from by abel, inner_neg_right]
    ring
  have hsplit : rho δ Z U
      = (∑ i, ∑ j, guttmanWeight δ Z i j * (inner (U i) (Z i - Z j) : ℝ))
        - (∑ i, ∑ j, guttmanWeight δ Z i j * (inner (U j) (Z i - Z j) : ℝ)) := by
    rw [rho, ← Finset.sum_sub_distrib]
    refine Finset.sum_congr rfl (fun i _ => ?_)
    rw [← Finset.sum_sub_distrib]
    refine Finset.sum_congr rfl (fun j _ => ?_)
    rw [inner_sub_left]
    ring
  rw [hsplit, hS2]
  ring

theorem cross_inner_eq_rho (δ : Fin n → Fin n → ℝ) (Z : Fin n → E)
    (hsym : ∀ i j, δ i j = δ j i) (U : Fin n → E) :
    (∑ i, ∑ j, (inner (U i - U j) (guttman δ Z i - guttman δ Z j) : ℝ)) = rho δ Z U := by
  rw [sum_inner_diff_of_sum_zero U (guttman δ Z) (sum_guttman_eq_zero δ Z hsym),
      rho_eq_two_mul δ Z hsym U]
  congr 1
  refine Finset.sum_congr rfl (fun i _ => ?_)
  rw [← real_inner_smul_right, nsmul_guttman δ Z i, inner_sum]
  refine Finset.sum_congr rfl (fun j _ => ?_)
  rw [real_inner_smul_right]

theorem eta_decomp (X U A : Fin n → E) (h : ∀ i, X i = U i + A i) :
    eta X = eta U + eta A + 2 * ∑ i, ∑ j, (inner (U i - U j) (A i - A j) : ℝ) := by
  have hpt : ∀ i j, ‖X i - X j‖ ^ 2
      = ‖U i - U j‖ ^ 2 + ‖A i - A j‖ ^ 2
        + 2 * (inner (U i - U j) (A i - A j) : ℝ) := by
    intro i j
    rw [show X i - X j = (U i - U j) + (A i - A j) from by rw [h i, h j]; abel,
        norm_add_sq_real]
    ring
  have h2 : eta X = ∑ i, ∑ j, (‖U i - U j‖ ^ 2 + ‖A i - A j‖ ^ 2
      + 2 * (inner (U i - U j) (A i - A j) : ℝ)) := by
    rw [eta]
    exact Finset.sum_congr rfl (fun i _ => Finset.sum_congr rfl (fun j _ => hpt i j))
  rw [h2]
  simp only [Finset.sum_add_distrib, ← Finset.mul_sum]
  rw [eta, eta]

theorem rho_decomp (δ : Fin n → Fin n → ℝ) (Z X U A : Fin n → E)
    (h : ∀ i, X i = U i + A i) :
    rho δ Z X = rho δ Z U + rho δ Z A := by
  simp only [rho]
  rw [← Finset.sum_add_distrib]
  refine Finset.sum_congr rfl (fun i _ => ?_)
  rw [← Finset.sum_add_distrib]
  refine Finset.sum_congr rfl (fun j _ => ?_)
  rw [show X i - X j = (U i - U j) + (A i - A j) from by rw [h i, h j]; abel,
      inner_add_left]
  ring

theorem tau_guttman_le (δ : Fin n → Fin n → ℝ) (Z : Fin n → E)
    (hsym : ∀ i j, δ i j = δ j i) (X : Fin n → E) :
    tau δ Z (guttman δ Z) ≤ tau δ Z X := by
  obtain ⟨U, hUdef⟩ : ∃ U : Fin n → E, ∀ i, X i = U i + guttman δ Z i :=
    ⟨fun i => X i - guttman δ Z i, fun i => by simp⟩
  have he := eta_decomp X U (guttman δ Z) hUdef
  have hr := rho_decomp δ Z X U (guttman δ Z) hUdef
  have hs := cross_inner_eq_rho δ Z hsym U
  have hU : (0 : ℝ) ≤ eta U := by
    rw [eta]
    exact Finset.sum_nonneg (fun i _ => Finset.sum_nonneg (fun j _ => by positivity))
  simp only [tau]
  linarith

/-- Stress monotonicity of one Guttman-transform step: for a symmetric
non-negative dissimilarity matrix, the stress of the updated configuration
never exceeds the stress of the current one (majorization argument of
SMACOF: the stress is bounded by the quadratic majorizer anchored at the
current configuration, which the Guttman transform minimizes and which
touches the stress at the anchor). -/
theorem stress_guttman_le (δ : Fin n → Fin n → ℝ) (Z : Fin n → E)
    (hsym : ∀ i j, δ i j = δ j i) (hnn : ∀ i j, 0 ≤ δ i j) :
    stress δ (guttman δ Z) ≤ stress δ Z := by
  have h1 := two_mul_stress δ (guttman δ Z)
  have h2 := two_mul_stress δ Z
  have h3 := rho_le_crossTerm δ Z (guttman δ Z) hnn
  have h4 := rho_self_eq_crossTerm δ Z
  have h5 := tau_guttman_le δ Z hsym Z
  simp only [tau] at h5
  linarith

/-- Modelled from the spec (§4.2 steps 2-3): the sequence of configurations
produced by repeatedly applying the Guttman transform to an initial
candidate; `smacofIterate δ Z₀ t` is the candidate after `t` iterations of
the majorization loop. -/
noncomputable def smacofIterate (δ : Fin n → Fin n → ℝ) (Z₀ : Fin n → E) : ℕ → Fin n → E
  | 0 => Z₀
  | t + 1 => guttman δ (smacofIterate δ Z₀ t)

end Smacof

/-- C7: within a single restart candidate of the iterative MDS solver, the
stress never increases between two consecutive iterations of the
majorization loop, for every symmetric non-negative dissimilarity matrix,
every initial configuration and every target dimensionality. -/
theorem stress_monotone_iterations {n d : ℕ} (δ : Fin n → Fin n → ℝ)
    (Z₀ : Fin n → EuclideanSpace ℝ (Fin d))
    (hsym : ∀ i j, δ i j = δ j i) (hnn : ∀ i j, 0 ≤ δ i j) (t : ℕ) :
    stress δ (smacofIterate δ Z₀ (t + 1)) ≤ stress δ (smacofIterate δ Z₀ t) :=
  stress_guttman_le δ (smacofIterate δ Z₀ t) hsym hnn

/-- Witness for C7: one iteration step on a concrete two-point,
one-dimensional instance with constant dissimilarity one. -/
theorem stress_monotone_iterations_witness :
    stress (fun _ _ => (1 : ℝ))
        (smacofIterate (fun _ _ => (1 : ℝ))
          (fun _ : Fin 2 => (0 : EuclideanSpace ℝ (Fin 1))) 1)
      ≤ stress (fun _ _ => (1 : ℝ))
        (smacofIterate (fun _ _ => (1 : ℝ))
          (fun _ : Fin 2 => (0 : EuclideanSpace ℝ (Fin 1))) 0) :=
  stress_monotone_iterations (fun _ _ => (1 : ℝ))
    (fun _ : Fin 2 => (0 : EuclideanSpace ℝ (Fin 1)))
    (fun _ _ => rfl) (fun _ _ => zero_le_one) 0

/-- Modelled from the spec (§4.2 step 1): a linear-congruential
pseudo-random generator; `lcg s` is the successor of state `s`.  The
spec only requires a fixed, seedable source that is deterministic given
the seed. -/
def lcg (s : ℕ) : ℕ := (1103515245 * s + 12345) % 2147483648

/-- Value number `k` of the pseudo-random stream started at `seed`. -/
def lcgStream (seed : ℕ) : ℕ → ℕ
  | 0 => lcg seed
  | k + 1 => lcg (lcgStream seed k)

/-- Modelled from the spec (§4.2 step 1): the random initial `n × d`
configuration drawn from the seeded generator, one stream value per
coordinate, scaled into `[0, 1)`. -/
noncomputable def initConfig (n d : ℕ) (seed : ℕ) : Fin n → EuclideanSpace ℝ (Fin d) :=
  fun i k => (lcgStream seed (i.val * d + k.val) : ℝ) / 2147483648

/-- Modelled from the spec (§4.2 steps 1-3): one restart candidate — the
majorization loop run from the seeded random initial configuration for the
full iteration budget.  The relative-tolerance early exit of §4.2 step 3
only decides how soon the loop stops; every property proved here is
insensitive to the stopping rule, so the model runs the whole budget. -/
noncomputable def smacofRun (n d : ℕ) (δ : Fin n → Fin n → ℝ) (seed maxIter : ℕ) :
    Fin n → EuclideanSpace ℝ (Fin d) :=
  smacofIterate δ (initConfig n d seed) maxIter

/-- Modelled from the spec (§4.2 step 4): keep the candidate with the
lowest final stress, the earlier candidate winning ties
(first-computed tie-breaking). -/
noncomputable def pickBest {n d : ℕ} (δ : Fin n → Fin n → ℝ) :
    List (Fin n → EuclideanSpace ℝ (Fin d)) → (Fin n → EuclideanSpace ℝ (Fin d))
      → (Fin n → EuclideanSpace ℝ (Fin d))
  | [], best => best
  | c :: rest, best =>
      if stress δ c < stress δ best then pickBest δ rest c else pickBest δ rest best

/-- Modelled from the spec (§4.2 steps 1-4): the accepted configuration —
`n_init` independent restart candidates with consecutively derived seeds,
each run for the iteration budget, the lowest-stress one selected. -/
noncomputable def smacofBest (n d : ℕ) (δ : Fin n → Fin n → ℝ) (seed nInit maxIter : ℕ) :
    Fin n → EuclideanSpace ℝ (Fin d) :=
  pickBest δ ((List.range nInit).map (fun r => smacofRun n d δ (seed + r) maxIter))
    (smacofRun n d δ seed maxIter)

/-- C6: the whole embedding computation is deterministic given the seed —
two runs on the same dissimilarity matrix with the same seed produce
identical output configurations, because the random initialization is
drawn from a seedable pseudo-random source and no other part of the
computation consults any state. -/
theorem smacofBest_deterministic (n d : ℕ) (δ : Fin n → Fin n → ℝ)
    (seed₁ seed₂ nInit maxIter : ℕ) (h : seed₁ = seed₂) :
    smacofBest n d δ seed₁ nInit maxIter = smacofBest n d δ seed₂ nInit maxIter := by
  rw [h]

/-- Witness for C6 at the script's fixed seed `42` (`random_state=42`,
`n_init=4`, default budget 300) on a concrete two-point matrix. -/
theorem smacofBest_deterministic_witness :
    smacofBest 2 2 (fun _ _ => (1 : ℝ)) 42 4 300
      = smacofBest 2 2 (fun _ _ => (1 : ℝ)) 42 4 300 :=
  smacofBest_deterministic 2 2 (fun _ _ => (1 : ℝ)) 42 42 4 300 rfl

/-- Structural contract violations of the input matrix (spec §7). -/
inductive ShapeViolation where
  | notSquare
  | asymmetric
  | nonzeroDiagonal
deriving DecidableEq

/-- Value violations of the input matrix (spec §7). -/
inductive ValueViolation where
  | negativeEntry
  | nonFiniteEntry
deriving DecidableEq

/-- Modelled from the spec (§7): the error taxonomy of the pipeline —
`MalformedMatrixError` for structural violations, `InvalidValueError` for
value violations, `InsufficientDataError` for too few entities. -/
inductive PipelineError where
  | malformedMatrixError (why : ShapeViolation)
  | invalidValueError (why : ValueViolation)
  | insufficientDataError
deriving DecidableEq

/-- Modelled from the spec (§4.2, §6, §7): the core `embed` operation —
it fails with `InsufficientDataError` when fewer than `d + 2` entities are
present, and otherwise returns the accepted lowest-stress configuration as
a list of identifier-point pairs, one per input entity. -/
noncomputable def embed (n d : ℕ) (δ : Fin n → Fin n → ℝ) (ids : Fin n → String)
    (seed nInit maxIter : ℕ) :
    Except PipelineError (List (String × EuclideanSpace ℝ (Fin d))) :=
  if n < d + 2 then .error .insufficientDataError
  else .ok ((List.finRange n).map (fun i => (ids i, smacofBest n d δ seed nInit maxIter i)))

/-- C9: for every input matrix with fewer than `d + 2` entities, where `d`
is the requested dimensionality, the embedding fails with
`InsufficientDataError` and produces no configuration. -/
theorem embed_insufficient (n d : ℕ) (δ : Fin n → Fin n → ℝ) (ids : Fin n → String)
    (seed nInit maxIter : ℕ) (h : n < d + 2) :
    embed n d δ ids seed nInit maxIter = .error .insufficientDataError := by
  rw [embed, if_pos h]

/-- Witness for C9: a three-entity matrix requested in two dimensions. -/
theorem embed_insufficient_witness :
    3 < 2 + 2 ∧
    embed 3 2 (fun _ _ => (1 : ℝ)) (fun _ => "id") 42 4 300
      = .error .insufficientDataError :=
  ⟨by decide,
   embed_insufficient 3 2 (fun _ _ => (1 : ℝ)) (fun _ => "id") 42 4 300 (by decide)⟩

/-- Counterexample to C4 as stated: the dissimilarity matrix on two
entities with zero diagonal and off-diagonal one is symmetric,
zero-diagonal and non-negative, and dimensionality `2 ≥ 1` is requested,
yet `embed` does not return a configuration of two points — it fails with
`InsufficientDataError`, because two entities are fewer than `d + 2 = 4`
(spec §4.2 error conditions). -/
theorem embed_valid_matrix_not_ok :
    (∀ i j : Fin 2, (fun a b : Fin 2 => if a = b then (0 : ℝ) else 1) i j
        = (fun a b : Fin 2 => if a = b then (0 : ℝ) else 1) j i) ∧
    (∀ i : Fin 2, (fun a b : Fin 2 => if a = b then (0 : ℝ) else 1) i i = 0) ∧
    (∀ i j : Fin 2, 0 ≤ (fun a b : Fin 2 => if a = b then (0 : ℝ) else 1) i j) ∧
    (1 : ℕ) ≤ 2 ∧
    embed 2 2 (fun a b : Fin 2 => if a = b then (0 : ℝ) else 1) (fun _ => "id") 42 4 300
      = .error .insufficientDataError := by
  refine ⟨?_, ?_, ?_, ?_, ?_⟩
  · intro i j
    by_cases h : i = j <;> simp [h, eq_comm]
  · intro i
    simp
  · intro i j
    by_cases h : i = j <;> simp [h]
  · decide
  · rw [embed, if_pos (by decide)]

/-- C4 as amended: for every symmetric, zero-diagonal, non-negative
dissimilarity matrix on `n` entities and every requested dimensionality
`d ≥ 1`, provided at least `d + 2` entities are present, `embed` returns a
configuration of exactly `n` points, one per input entity identifier. -/
theorem embed_ok_count (n d : ℕ) (δ : Fin n → Fin n → ℝ) (ids : Fin n → String)
    (seed nInit maxIter : ℕ)
    (hsym : ∀ i j, δ i j = δ j i) (hdiag : ∀ i, δ i i = 0) (hnn : ∀ i j, 0 ≤ δ i j)
    (hd : 1 ≤ d) (hn : d + 2 ≤ n) :
    ∃ pts, embed n d δ ids seed nInit maxIter = .ok pts
      ∧ pts.length = n
      ∧ pts.map Prod.fst = (List.finRange n).map ids := by
  refine ⟨(List.finRange n).map
      (fun i => (ids i, smacofBest n d δ seed nInit maxIter i)), ?_, ?_, ?_⟩
  · rw [embed, if_neg (not_lt.mpr hn)]
  · rw [List.length_map, List.length_finRange]
  · rw [List.map_map]
    rfl

section ScaleCovariance

variable {n d : ℕ} {E : Type*} [NormedAddCommGroup E] [InnerProductSpace ℝ E]

theorem norm_smul_sub (k : ℝ) (hk : 0 ≤ k) (x y : E) : ‖k • x - k • y‖ = k * ‖x - y‖ := by
  rw [← smul_sub, norm_smul, Real.norm_eq_abs, abs_of_nonneg hk]

theorem guttmanWeight_smul_left (k : ℝ) (δ : Fin n → Fin n → ℝ) (Z : Fin n → E)
    (i j : Fin n) :
    guttmanWeight (fun a b => k * δ a b) Z i j = k * guttmanWeight δ Z i j := by
  simp only [guttmanWeight]
  by_cases h : ‖Z i - Z j‖ = 0
  · rw [if_pos h, if_pos h, mul_zero]
  · rw [if_neg h, if_neg h, mul_div_assoc]

theorem guttman_smul_left (k : ℝ) (δ : Fin n → Fin n → ℝ) (Z : Fin n → E) :
    guttman (fun a b => k * δ a b) Z = fun i => k • guttman δ Z i := by
  funext i
  simp only [guttman]
  have hterm : ∀ j, guttmanWeight (fun a b => k * δ a b) Z i j • (Z i - Z j)
      = k • (guttmanWeight δ Z i j • (Z i - Z j)) := fun j => by
    rw [guttmanWeight_smul_left, mul_smul]
  rw [Finset.sum_congr rfl (fun j _ => hterm j), ← Finset.smul_sum, smul_smul, smul_smul,
    mul_comm]

theorem guttmanWeight_smul_both (k : ℝ) (hk : 0 < k) (δ : Fin n → Fin n → ℝ)
    (Z : Fin n → E) (i j : Fin n) :
    guttmanWeight (fun a b => k * δ a b) (fun a => k • Z a) i j = guttmanWeight δ Z i j := by
  simp only [guttmanWeight, norm_smul_sub k hk.le]
  by_cases h : ‖Z i - Z j‖ = 0
  · rw [h, mul_zero]
    simp
  · have hkz : k * ‖Z i - Z j‖ ≠ 0 := mul_ne_zero hk.ne' h
    rw [if_neg hkz, if_neg h]
    field_simp
    ring

theorem guttman_smul_both (k : ℝ) (hk : 0 < k) (δ : Fin n → Fin n → ℝ) (Z : Fin n → E) :
    guttman (fun a b => k * δ a b) (fun a => k • Z a) = fun i => k • guttman δ Z i := by
  funext i
  simp only [guttman, guttmanWeight_smul_both k hk δ Z]
  have hterm : ∀ j, guttmanWeight δ Z i j • (k • Z i - k • Z j)
      = k • (guttmanWeight δ Z i j • (Z i - Z j)) := fun j => by
    rw [← smul_sub, smul_comm]
  rw [Finset.sum_congr rfl (fun j _ => hterm j), ← Finset.smul_sum, smul_smul, smul_smul,
    mul_comm]

theorem smacofIterate_smul (k : ℝ) (hk : 0 < k) (δ : Fin n → Fin n → ℝ)
    (Z₀ : Fin n → E) (t : ℕ) :
    smacofIterate (fun a b => k * δ a b) Z₀ (t + 1)
      = fun i => k • smacofIterate δ Z₀ (t + 1) i := by
  induction t with
  | zero =>
    simp only [smacofIterate]
    exact guttman_smul_left k δ Z₀
  | succ t ih =>
    show guttman (fun a b => k * δ a b) (smacofIterate (fun a b => k * δ a b) Z₀ (t + 1)) = _
    rw [ih, guttman_smul_both k hk δ (smacofIterate δ Z₀ (t + 1))]
    rfl

theorem stress_smul (k : ℝ) (hk : 0 ≤ k) (δ : Fin n → Fin n → ℝ) (X : Fin n → E) :
    stress (fun a b => k * δ a b) (fun i => k • X i) = k ^ 2 * stress δ X := by
  simp only [stress]
  have hterm : ∀ i j : Fin n, (k * δ i j - ‖k • X i - k • X j‖) ^ 2
      = k ^ 2 * (δ i j - ‖X i - X j‖) ^ 2 := fun i j => by
    rw [norm_smul_sub k hk]
    ring
  rw [Finset.sum_congr rfl (fun i _ => Finset.sum_congr rfl (fun j _ => hterm i j))]
  simp only [← Finset.mul_sum]
  ring

theorem pickBest_smul (k : ℝ) (hk : 0 < k) (δ : Fin n → Fin n → ℝ)
    (cands : List (Fin n → EuclideanSpace ℝ (Fin d)))
    (best : Fin n → EuclideanSpace ℝ (Fin d)) :
    pickBest (fun a b => k * δ a b) (cands.map (fun c => fun i => k • c i))
        (fun i => k • best i)
      = fun i => k • pickBest δ cands best i := by
  induction cands generalizing best with
  | nil => rfl
  | cons c rest ih =>
    simp only [List.map_cons, pickBest, stress_smul k hk.le δ]
    by_cases h : stress δ c < stress δ best
    · rw [if_pos ((mul_lt_mul_left (pow_pos hk 2)).mpr h), if_pos h]
      exact ih c
    · rw [if_neg (fun hc => h ((mul_lt_mul_left (pow_pos hk 2)).mp hc)), if_neg h]
      exact ih best

theorem smacofRun_smul (k : ℝ) (hk : 0 < k) (n d : ℕ) (δ : Fin n → Fin n → ℝ)
    (s m : ℕ) :
    smacofRun n d (fun a b => k * δ a b) s (m + 1)
      = fun i => k • smacofRun n d δ s (m + 1) i := by
  rw [smacofRun, smacofRun]
  exact smacofIterate_smul k hk δ (initConfig n d s) m

theorem smacofBest_smul (k : ℝ) (hk : 0 < k) (n d : ℕ) (δ : Fin n → Fin n → ℝ)
    (seed nInit m : ℕ) :
    smacofBest n d (fun a b => k * δ a b) seed nInit (m + 1)
      = fun i => k • smacofBest n d δ seed nInit (m + 1) i := by
  rw [smacofBest, smacofBest]
  have hcands : ((List.range nInit).map
        (fun r => smacofRun n d (fun a b => k * δ a b) (seed + r) (m + 1)))
      = ((List.range nInit).map (fun r => smacofRun n d δ (seed + r) (m + 1))).map
          (fun c => fun i => k • c i) := by
    rw [List.map_map]
    exact List.map_congr_left (fun r _ => smacofRun_smul k hk n d δ (seed + r) m)
  rw [hcands, smacofRun_smul k hk n d δ seed m, pickBest_smul k hk]

end ScaleCovariance

/-- Scaling of a merged-table row: both embedding coordinates multiplied
by `k`, the identifier and lineage kept. -/
def scaleRow (k : ℝ) (r : Row) : Row :=
  ⟨r.seqId, k * r.dim1, k * r.dim2, r.lineage⟩

theorem subsetOf_map_scale (k : ℝ) (df : List Row) (name : String) :
    subsetOf (df.map (scaleRow k)) name = (subsetOf df name).map (scaleRow k) :=
  List.filter_map (scaleRow k) df

theorem listMean_map_mul (k : ℝ) (l : List Row) (f : Row → ℝ) :
    listMean (l.map (fun r => k * f r)) = k * listMean (l.map f) := by
  rw [listMean, listMean, List.length_map, List.length_map]
  have hsum : (l.map (fun r => k * f r)).sum = k * (l.map f).sum := by
    induction l with
    | nil => simp
    | cons x t ih =>
      simp [ih]
      ring
  rw [hsum, mul_div_assoc]

theorem map_scale_sqrt (k : ℝ) (hk : 0 < k) (l : List Row) (c1 c2 : ℝ) :
    (l.map (scaleRow k)).map
        (fun r => Real.sqrt ((r.dim1 - k * c1) ^ 2 + (r.dim2 - k * c2) ^ 2))
      = l.map (fun r => k * Real.sqrt ((r.dim1 - c1) ^ 2 + (r.dim2 - c2) ^ 2)) := by
  rw [List.map_map]
  refine List.map_congr_left (fun r _ => ?_)
  have h1 : (scaleRow k r).dim1 = k * r.dim1 := rfl
  have h2 : (scaleRow k r).dim2 = k * r.dim2 := rfl
  simp only [Function.comp_apply, h1, h2]
  rw [show (k * r.dim1 - k * c1) ^ 2 + (k * r.dim2 - k * c2) ^ 2
      = k ^ 2 * ((r.dim1 - c1) ^ 2 + (r.dim2 - c2) ^ 2) from by ring,
    Real.sqrt_mul (sq_nonneg k), Real.sqrt_sq hk.le]

theorem calculate_dispersion_scale (k : ℝ) (hk : 0 < k) (df : List Row) (name : String) :
    calculate_dispersion (df.map (scaleRow k)) name
      = k * calculate_dispersion df name := by
  rw [calculate_dispersion, calculate_dispersion, subsetOf_map_scale]
  by_cases h : (subsetOf df name).isEmpty
  · have h' : subsetOf df name = [] := by simpa [List.isEmpty_iff] using h
    rw [h']
    norm_num
  · have hne : subsetOf df name ≠ [] := by simpa [List.isEmpty_iff] using h
    have h'' : ¬ ((subsetOf df name).map (scaleRow k)).isEmpty = true := by
      simpa [List.isEmpty_iff, List.map_eq_nil_iff] using hne
    rw [if_neg h'', if_neg h]
    have hd1 : ((subsetOf df name).map (scaleRow k)).map Row.dim1
        = (subsetOf df name).map (fun r => k * r.dim1) := by
      rw [List.map_map]
      exact List.map_congr_left (fun r _ => rfl)
    have hd2 : ((subsetOf df name).map (scaleRow k)).map Row.dim2
        = (subsetOf df name).map (fun r => k * r.dim2) := by
      rw [List.map_map]
      exact List.map_congr_left (fun r _ => rfl)
    rw [hd1, hd2, listMean_map_mul k _ Row.dim1, listMean_map_mul k _ Row.dim2,
      map_scale_sqrt k hk, listMean_map_mul]

/-- Merged coordinate table built from an embedded two-dimensional
configuration: one row per entity, with its identifier, its two embedding
coordinates and its lineage label. -/
noncomputable def rowsFrom {n : ℕ} (X : Fin n → EuclideanSpace ℝ (Fin 2))
    (ids labels : Fin n → String) : List Row :=
  (List.finRange n).map (fun i => ⟨ids i, X i 0, X i 1, labels i⟩)

/-- C8: multiplying every entry of the dissimilarity matrix by a constant
`k > 0` multiplies every pairwise distance of the resulting embedding by
exactly `k`, and multiplies every per-category dispersion value of the
embedded configuration by exactly `k` (exact arithmetic; in particular the
scaling holds to within any approximation tolerance). -/
theorem scale_covariance (n : ℕ) (k : ℝ) (δ : Fin n → Fin n → ℝ)
    (seed nInit m : ℕ) (ids labels : Fin n → String) (name : String) (hk : 0 < k) :
    (∀ i j : Fin n,
      dist (smacofBest n 2 (fun a b => k * δ a b) seed nInit (m + 1) i)
          (smacofBest n 2 (fun a b => k * δ a b) seed nInit (m + 1) j)
        = k * dist (smacofBest n 2 δ seed nInit (m + 1) i)
            (smacofBest n 2 δ seed nInit (m + 1) j)) ∧
    calculate_dispersion
        (rowsFrom (smacofBest n 2 (fun a b => k * δ a b) seed nInit (m + 1)) ids labels)
        name
      = k * calculate_dispersion
          (rowsFrom (smacofBest n 2 δ seed nInit (m + 1)) ids labels) name := by
  have hbest := smacofBest_smul k hk n 2 δ seed nInit m
  constructor
  · intro i j
    rw [hbest, dist_eq_norm, dist_eq_norm]
    exact norm_smul_sub k hk.le _ _
  · rw [hbest]
    have hrows : rowsFrom (fun i => k • smacofBest n 2 δ seed nInit (m + 1) i) ids labels
        = (rowsFrom (smacofBest n 2 δ seed nInit (m + 1)) ids labels).map (scaleRow k) := by
      rw [rowsFrom, rowsFrom, List.map_map]
      exact List.map_congr_left (fun i _ => by simp [scaleRow, PiLp.smul_apply])
    rw [hrows, calculate_dispersion_scale k hk]

/-- Witness for C8 at `k = 2` on a concrete two-entity matrix with the
script's parameters. -/
theorem scale_covariance_witness :
    (∀ i j : Fin 2,
      dist (smacofBest 2 2 (fun a b => 2 * (fun _ _ : Fin 2 => (1 : ℝ)) a b) 42 4 (299 + 1) i)
          (smacofBest 2 2 (fun a b => 2 * (fun _ _ : Fin 2 => (1 : ℝ)) a b) 42 4 (299 + 1) j)
        = 2 * dist (smacofBest 2 2 (fun _ _ : Fin 2 => (1 : ℝ)) 42 4 (299 + 1) i)
            (smacofBest 2 2 (fun _ _ : Fin 2 => (1 : ℝ)) 42 4 (299 + 1) j)) ∧
    calculate_dispersion
        (rowsFrom (smacofBest 2 2 (fun a b => 2 * (fun _ _ : Fin 2 => (1 : ℝ)) a b) 42 4 (299 + 1))
          (fun _ => "id") (fun _ => "Compact-loop")) "Compact-loop"
      = 2 * calculate_dispersion
          (rowsFrom (smacofBest 2 2 (fun _ _ : Fin 2 => (1 : ℝ)) 42 4 (299 + 1))
            (fun _ => "id") (fun _ => "Compact-loop")) "Compact-loop" :=
  scale_covariance 2 2 (fun _ _ : Fin 2 => (1 : ℝ)) 42 4 299
    (fun _ => "id") (fun _ => "Compact-loop") "Compact-loop" two_pos

/-- Raw cell value of the input matrix before validation: a finite
rational, or one of the non-finite floating-point values. -/
inductive CellValue where
  | val (q : ℚ)
  | nan
  | posInf
  | negInf
deriving DecidableEq

/-- Raw input to the validator: the matrix as a list of rows together with
the ordered entity identifiers. -/
structure RawMatrix where
  rows : List (List CellValue)
  ids : List String

/-- Tolerance ε of the validator (spec §4.1 default `1e-6`). -/
def epsTol : ℚ := 1 / 1000000

/-- Entry access with the usual out-of-range default. -/
def entry (m : RawMatrix) (i j : ℕ) : CellValue :=
  (m.rows.getD i []).getD j (.val 0)

/-- Modelled from the spec (§4.1): the matrix is square and matches the
identifier count. -/
def squareOK (m : RawMatrix) : Bool :=
  m.rows.length == m.ids.length && m.rows.all (fun r => r.length == m.ids.length)

/-- Two cells are symmetric within tolerance; comparisons involving a
non-finite cell are deferred to the value check. -/
def closeCells (a b : CellValue) : Bool :=
  match a, b with
  | .val p, .val q => decide (|p - q| ≤ epsTol)
  | _, _ => true

/-- Modelled from the spec (§4.1): symmetry within tolerance ε. -/
def symOK (m : RawMatrix) : Bool :=
  (List.range m.ids.length).all (fun i =>
    (List.range m.ids.length).all (fun j => closeCells (entry m i j) (entry m j i)))

/-- Modelled from the spec (§4.1): finite diagonal entries are within ε
of zero. -/
def diagOK (m : RawMatrix) : Bool :=
  (List.range m.ids.length).all (fun i =>
    match entry m i i with
    | .val p => decide (|p| ≤ epsTol)
    | _ => true)

/-- Modelled from the spec (§4.1): a cell is acceptable when it is finite
and non-negative. -/
def cellValueOK : CellValue → Bool
  | .val p => decide (0 ≤ p)
  | _ => false

/-- Modelled from the spec (§4.1): no entry is negative or non-finite. -/
def valuesOK (m : RawMatrix) : Bool :=
  m.rows.all (fun r => r.all cellValueOK)

/-- Whether some entry is non-finite (used to pick the violation payload). -/
def hasNonFinite (m : RawMatrix) : Bool :=
  m.rows.any (fun r => r.any (fun c =>
    match c with
    | .val _ => false
    | _ => true))

/-- Numeric value of a finite cell (padding value for the success path,
where every cell is finite). -/
def toRat : CellValue → ℚ
  | .val p => p
  | _ => 0

/-- Modelled from the spec (§4.1): the canonical matrix returned on
success — the average of the matrix and its transpose. -/
def symmetrize (m : RawMatrix) : List (List ℚ) :=
  (List.range m.ids.length).map (fun i =>
    (List.range m.ids.length).map (fun j =>
      (toRat (entry m i j) + toRat (entry m j i)) / 2))

/-- Modelled from the spec (§4.1, §7): the dissimilarity-matrix validator —
a non-square matrix, asymmetry beyond ε and a diagonal entry farther than
ε from zero fail with `MalformedMatrixError`; a negative or non-finite
entry fails with `InvalidValueError`; on success the symmetrized canonical
matrix is returned. -/
def validate (m : RawMatrix) : Except PipelineError (List (List ℚ)) :=
  if !squareOK m then .error (.malformedMatrixError .notSquare)
  else if !symOK m then .error (.malformedMatrixError .asymmetric)
  else if !diagOK m then .error (.malformedMatrixError .nonzeroDiagonal)
  else if !valuesOK m then
    .error (.invalidValueError (if hasNonFinite m then .nonFiniteEntry else .negativeEntry))
  else .ok (symmetrize m)

/-- Result of a pipeline invocation: the outcome together with the number
of majorization iterations begun. -/
structure PipelineRun where
  result : Except PipelineError (List (String × EuclideanSpace ℝ (Fin 2)))
  iterationsBegun : ℕ

/-- Modelled from the spec (§2, §7): the Validator → Embedder control
flow — the matrix is validated first and any validation error aborts the
pipeline at once, before any embedding iteration begins; on success the
embedder runs its full iteration budget on the canonical matrix. -/
noncomputable def runPipeline (m : RawMatrix) (seed nInit maxIter : ℕ) : PipelineRun :=
  match validate m with
  | .error e => ⟨.error e, 0⟩
  | .ok canon =>
      match embed m.ids.length 2
          (fun i j => (((canon.getD i []).getD j 0 : ℚ) : ℝ))
          (fun i => m.ids.get i) seed nInit maxIter with
      | .error e => ⟨.error e, 0⟩
      | .ok pts => ⟨.ok pts, nInit * maxIter⟩

/-- C3: for every input matrix violating the structural or value contract
(non-square, asymmetric beyond ε, diagonal entry farther than ε from zero,
negative or non-finite entry), the pipeline aborts with an error before
any embedding iteration begins — `MalformedMatrixError` when the structure
is violated, `InvalidValueError` when the structure is fine and a value is
violated — with no partial computation. -/
theorem pipeline_aborts_on_invalid (m : RawMatrix) (seed nInit maxIter : ℕ)
    (h : ¬ (squareOK m ∧ symOK m ∧ diagOK m ∧ valuesOK m)) :
    ∃ e, runPipeline m seed nInit maxIter = ⟨.error e, 0⟩
      ∧ (¬ (squareOK m ∧ symOK m ∧ diagOK m) → ∃ s, e = .malformedMatrixError s)
      ∧ ((squareOK m ∧ symOK m ∧ diagOK m) → ∃ v, e = .invalidValueError v) := by
  by_cases h1 : squareOK m
  · by_cases h2 : symOK m
    · by_cases h3 : diagOK m
      · have h4 : ¬ valuesOK m = true := fun h4 => h ⟨h1, h2, h3, h4⟩
        refine ⟨.invalidValueError
          (if hasNonFinite m then .nonFiniteEntry else .negativeEntry), ?_, ?_, ?_⟩
        · rw [runPipeline, validate]
          simp [h1, h2, h3, h4]
        · intro hc
          exact absurd ⟨h1, h2, h3⟩ hc
        · intro _
          exact ⟨_, rfl⟩
      · refine ⟨.malformedMatrixError .nonzeroDiagonal, ?_, ?_, ?_⟩
        · rw [runPipeline, validate]
          simp [h1, h2, h3]
        · intro _
          exact ⟨_, rfl⟩
        · intro hc
          exact absurd hc.2.2 h3
    · refine ⟨.malformedMatrixError .asymmetric, ?_, ?_, ?_⟩
      · rw [runPipeline, validate]
        simp [h1, h2]
      · intro _
        exact ⟨_, rfl⟩
      · intro hc
        exact absurd hc.2.1 h2
  · refine ⟨.malformedMatrixError .notSquare, ?_, ?_, ?_⟩
    · rw [runPipeline, validate]
      simp [h1]
    · intro _
      exact ⟨_, rfl⟩
    · intro hc
      exact absurd hc.1 h1

/-- Witness for C3: a concrete one-row, two-identifier (hence non-square)
matrix aborts the pipeline with a structural error and zero iterations. -/
theorem pipeline_aborts_on_invalid_witness :
    ∃ e, runPipeline ⟨[[.val 0, .val 1]], ["a", "b"]⟩ 42 4 300 = ⟨.error e, 0⟩
      ∧ (¬ (squareOK ⟨[[.val 0, .val 1]], ["a", "b"]⟩
            ∧ symOK ⟨[[.val 0, .val 1]], ["a", "b"]⟩
            ∧ diagOK ⟨[[.val 0, .val 1]], ["a", "b"]⟩)
          → ∃ s, e = .malformedMatrixError s)
      ∧ ((squareOK ⟨[[.val 0, .val 1]], ["a", "b"]⟩
            ∧ symOK ⟨[[.val 0, .val 1]], ["a", "b"]⟩
            ∧ diagOK ⟨[[.val 0, .val 1]], ["a", "b"]⟩)
          → ∃ v, e = .invalidValueError v) :=
  pipeline_aborts_on_invalid ⟨[[.val 0, .val 1]], ["a", "b"]⟩ 42 4 300 (by decide)

/-- Witness for C4 as amended: a valid three-entity matrix embedded in one
dimension yields three identifier-point pairs. -/
theorem embed_ok_count_witness :
    ∃ pts, embed 3 1 (fun a b : Fin 3 => if a = b then (0 : ℝ) else 1) (fun _ => "id") 42 4 300
        = .ok pts
      ∧ pts.length = 3
      ∧ pts.map Prod.fst = (List.finRange 3).map (fun _ => "id") :=
  embed_ok_count 3 1 (fun a b : Fin 3 => if a = b then (0 : ℝ) else 1) (fun _ => "id")
    42 4 300
    (fun i j => by by_cases h : i = j <;> simp [h, eq_comm])
    (fun i => by simp)
    (fun i j => by by_cases h : i = j <;> simp [h])
    (by decide) (by decide)


/-- Row of the metadata table: the `Sequence_ID` and `Lineage` columns. -/
structure MetaRow where
  seqId : String
  lineage : String
deriving DecidableEq

/-- Row of the coordinate table built on line 50 of the script, before the
metadata merge: the matrix row label as index and the two embedding
coordinates `Dim1`, `Dim2`. -/
structure CoordRow where
  id : String
  dim1 : ℝ
  dim2 : ℝ

/-- Embedding of the metadata join of line 51,
`coords_df.merge(metadata, left_index=True, right_on='Sequence_ID')`: an
inner join — each metadata row whose `Sequence_ID` equals a coordinate-row
index yields one merged row carrying the coordinates and the lineage;
metadata rows with no matching index, and coordinate rows with no matching
metadata, are dropped without any message.  Row order is immaterial to
every dispersion value computed from the merged table. -/
def merge (coords : List CoordRow) (metadata : List MetaRow) : List Row :=
  metadata.filterMap (fun mr =>
    (coords.find? (fun c => c.id == mr.seqId)).map
      (fun c => ⟨mr.seqId, c.dim1, c.dim2, mr.lineage⟩))

/-- Lineage label of the extended-loop category (script line 54). -/
def extendedLoopLabel : String := "Extended-loop"

/-- Lineage label of the compact-loop category (script line 55). -/
def compactLoopLabel : String := "Compact-loop"

/-- Console messages `run_mds_analysis` can print (script lines 35, 41,
45, 56, 57, 83), modelled abstractly so that no real number has to be
formatted. -/
inductive ScriptMsg where
  | loadingData
  | fileNotFoundError
  | runningMDS
  | dispersionExtended (v : ℝ)
  | dispersionCompact (v : ℝ)
  | plotSaved

/-- Whether a printed message is a warning diagnostic: the script contains
no warning-printing statement, so no message is one. -/
def ScriptMsg.isWarning : ScriptMsg → Bool := fun _ => false

/-- Parsed content of the RMSD matrix CSV: the row labels (index) and the
numeric matrix. -/
structure RmsdCsv where
  ids : List String
  values : List (List ℝ)

/-- File system visible to the script: each of the two input files is
either present with parsed content or absent. -/
structure ScriptFiles where
  rmsdCsv : Option RmsdCsv
  metadataCsv : Option (List MetaRow)

/-- Observable outcome of one invocation of `run_mds_analysis`: messages
printed in order, number of figures written, number of embedding
invocations, whether an exception escaped, and whether the function
returned `None` (a Python function without an explicit return value
returns `None` on every path). -/
structure RunResult where
  printed : List ScriptMsg
  savedFigures : ℕ
  embedCalls : ℕ
  raised : Bool
  returnedNone : Bool

/-- Embedding of `run_mds_analysis` (script lines 34-83): print the
loading message; read the two CSV files, and when either is absent catch
the `FileNotFoundError`, print the error message and return; otherwise run
the seeded MDS (`random_state=42`, `n_init=4`, default budget 300) on the
matrix, build the coordinate table indexed by the matrix labels, inner-join
it with the metadata, print the two dispersion indices, and write the
figure. -/
noncomputable def run_mds_analysis (fs : ScriptFiles) : RunResult :=
  match fs.rmsdCsv, fs.metadataCsv with
  | some rmsd, some metadata =>
      let n := rmsd.ids.length
      let coords := smacofBest n 2
        (fun i j => (rmsd.values.getD i []).getD j 0) 42 4 300
      let coords_df : List CoordRow :=
        (List.finRange n).map (fun i => ⟨rmsd.ids.get i, coords i 0, coords i 1⟩)
      let coords_merged := merge coords_df metadata
      ⟨[.loadingData, .runningMDS,
          .dispersionExtended (calculate_dispersion coords_merged extendedLoopLabel),
          .dispersionCompact (calculate_dispersion coords_merged compactLoopLabel),
          .plotSaved],
        1, 1, false, true⟩
  | _, _ => ⟨[.loadingData, .fileNotFoundError], 0, 0, false, true⟩

/-- C10: when either input CSV is missing, `run_mds_analysis` catches the
`FileNotFoundError`, prints the error message after the loading message,
returns `None`, lets no exception propagate, attempts no embedding, and
writes no output file. -/
theorem run_mds_analysis_missing_file (fs : ScriptFiles)
    (h : fs.rmsdCsv = none ∨ fs.metadataCsv = none) :
    run_mds_analysis fs = ⟨[.loadingData, .fileNotFoundError], 0, 0, false, true⟩ := by
  obtain ⟨r, md⟩ := fs
  rcases h with h | h
  · cases h
    cases md <;> rfl
  · cases h
    cases r <;> rfl

/-- Witness for C10: both files absent. -/
theorem run_mds_analysis_missing_file_witness :
    run_mds_analysis ⟨none, none⟩
      = ⟨[.loadingData, .fileNotFoundError], 0, 0, false, true⟩ :=
  run_mds_analysis_missing_file ⟨none, none⟩ (Or.inl rfl)

/-- Counterexample to C5 as stated: the metadata table of this concrete
run references the identifier `ZZ`, which is not present among the two
embedded entities, yet the run emits no warning whatsoever — the inner
join drops the row and no message the script prints is a warning, so the
unmatched entry is not "skipped with a warning". -/
theorem unmatched_label_no_warning :
    ¬ (("ZZ" : String) ∈ (["A", "B"] : List String)) ∧
    ∀ msg ∈ (run_mds_analysis ⟨some ⟨["A", "B"], [[0, 1], [1, 0]]⟩,
        some [⟨"A", compactLoopLabel⟩, ⟨"B", compactLoopLabel⟩,
          ⟨"ZZ", compactLoopLabel⟩]⟩).printed,
      msg.isWarning = false :=
  ⟨by decide, fun _ _ => rfl⟩

/-- C5 as amended: a label-table entry whose identifier is not present
among the embedded entities is skipped silently — the inner join drops it
with no warning and no error — and every category's dispersion result over
the merged table is identical to what it is without that entry. -/
theorem unmatched_label_skipped (coords : List CoordRow) (md : List MetaRow)
    (mr : MetaRow) (h : ∀ c ∈ coords, c.id ≠ mr.seqId) (name : String) :
    merge coords (md ++ [mr]) = merge coords md ∧
    calculate_dispersion (merge coords (md ++ [mr])) name
      = calculate_dispersion (merge coords md) name := by
  have hfind : coords.find? (fun c => c.id == mr.seqId) = none :=
    List.find?_eq_none.mpr (fun c hc => by simpa using h c hc)
  have hm : merge coords (md ++ [mr]) = merge coords md := by
    simp only [merge, List.filterMap_append]
    simp [hfind]
  exact ⟨hm, by rw [hm]⟩

/-- Witness for C5 as amended: appending the unmatched entry `ZZ` to a
concrete metadata table leaves the merged table and the compact-loop
dispersion unchanged. -/
theorem unmatched_label_skipped_witness :
    (∀ c ∈ [(⟨"A", 1, 2⟩ : CoordRow)], c.id ≠ "ZZ") ∧
    (merge [⟨"A", 1, 2⟩] ([⟨"A", compactLoopLabel⟩] ++ [⟨"ZZ", compactLoopLabel⟩])
        = merge [⟨"A", 1, 2⟩] [⟨"A", compactLoopLabel⟩] ∧
      calculate_dispersion
          (merge [⟨"A", 1, 2⟩] ([⟨"A", compactLoopLabel⟩] ++ [⟨"ZZ", compactLoopLabel⟩]))
          compactLoopLabel
        = calculate_dispersion (merge [⟨"A", 1, 2⟩] [⟨"A", compactLoopLabel⟩])
            compactLoopLabel) :=
  ⟨by simp, unmatched_label_skipped [⟨"A", 1, 2⟩] [⟨"A", compactLoopLabel⟩]
    ⟨"ZZ", compactLoopLabel⟩ (by simp) compactLoopLabel⟩
